import Mathlib

/-!
Verification development for the s3namic repository (file src/s3namic/core.py).

The subsystem under verification is the recursive tree-listing / search /
parallel-read subsystem of the class `s3namic`:

  - `extension`      (core.py lines 416-434)
  - `make_tree`      (core.py lines 623-659)
  - `find_file`      (core.py lines 687-732)
  - `find_files`     (core.py lines 734-750)
  - `read_auto`      (core.py lines 752-779)
  - `_thread_map`    (core.py lines 136-157)
  - `read_thread`    (core.py lines 781-822)

Modelling conventions.

Python strings are modelled as `List Char` (the character sequence), named
`Key` below.  The S3 bucket is modelled as a fixed snapshot: the list of all
object keys, given in listing order (S3 lists keys in lexicographic order;
nothing below depends on sortedness, only on the order being fixed).

The boto3 paginator call `paginate(Bucket, Prefix, Delimiter)` is modelled by
`listing`, which computes from the snapshot the two groups S3 returns:
CommonPrefixes (for each key that still contains the delimiter after the
requested key-prefix, the portion of the key up to and including the first
such delimiter occurrence, de-duplicated, first occurrence first) and
Contents (the remaining keys under the requested key-prefix).  Pagination is
continuation-transparent: iterating the pages of one paginate call and
concatenating the per-page groups yields exactly these two lists, and a
botocore PageIterator re-issues the requests on every new for-loop, so on a
fixed snapshot each re-iteration (find_file iterates the same paginate result
twice) sees the same groups.  Both recursive functions of the source recurse
into strictly longer key-prefixes, all bounded by the longest key in the
snapshot; the Lean versions take a fuel argument and the wrappers pass the
fuel `maxLen bucket + 1`, which is proved sufficient (the fuel-irrelevance
lemmas below), so the wrappers compute exactly what the Python recursion
computes.

A Python dict is modelled by the inductive `TreeNode`: an insertion-ordered
sequence of entries whose values are either a sub-tree (`consDir`) or the
None marker used for leaf files (`consLeaf`); `TreeNode.insert` has dict
assignment semantics (overwrite value in place, else append).

The decode methods `read_csv` / `read_json` / ... are pass-throughs to the
storage client and the serialisation libraries.  Every one of them stages
the fetched object through the shared instance buffer `self.read_content`
written by `_read_file` (core.py lines 100-111) before decoding it, so two
interleaved tasks of the dispatcher can race on that buffer.  Two models
are therefore used: `read_auto` with an abstract `decode : Key → Key → V`
gives the value a read method returns when no other task interleaves with
it (enough for the tag-dispatch and error-propagation claims), while
`runShared` executes an explicit schedule of per-task fetch/decode steps
against the shared buffer, which is what the interleaving claim needs.
`getattr(self, "read_" + tag)` succeeds exactly for the read methods
defined on the class, listed in `readMethodTags`.  Python exceptions are
modelled by `Except PyError`.
-/

/-- A Python string, as its sequence of characters. -/
abbrev Key := List Char

/-- Kinds of Python exception the modelled code can raise. -/
inductive PyError where
  | indexError : PyError
  | attributeError : PyError
  | typeError : PyError
  deriving DecidableEq, Repr

/-- Python `s.split(sep)` for a single-character separator `c`. -/
def pySplit (c : Char) : List Char → List (List Char)
  | [] => [[]]
  | a :: l =>
    if a = c then [] :: pySplit c l
    else (a :: (pySplit c l).headD []) :: (pySplit c l).tail

/-- Python negative indexing: `l[-(k+1)]`, as an `Option`. -/
def pyNegIdx {α : Type} (l : List α) (k : Nat) : Option α :=
  l.reverse.get? k

/-- Embedding of `s3namic.extension` (core.py lines 416-434):
`file_name.split(".")[-2]` if `file_name.split(".")[-1]` is `gz` or `bz2`,
else `file_name.split(".")[-1]`.  A failing negative index is a Python
IndexError. -/
def extension (file : Key) : Except PyError Key :=
  match pyNegIdx (pySplit '.' file) 0 with
  | none => .error .indexError
  | some lastSeg =>
    if lastSeg = ("gz").data ∨ lastSeg = ("bz2").data then
      match pyNegIdx (pySplit '.' file) 1 with
      | some seg => .ok seg
      | none => .error .indexError
    else .ok lastSeg

/-- The first index at which `d` occurs as a contiguous block of `r`
(Python `r.find(d)`), `none` when `d` does not occur. -/
def firstOccur (d : Key) : Key → Option Nat
  | [] => if d.isPrefixOf ([] : Key) then some 0 else none
  | c :: r => if d.isPrefixOf (c :: r) then some 0 else (firstOccur d r).map (· + 1)

/-- Python substring containment `nm in s`. -/
def strIn (nm s : Key) : Bool := (firstOccur nm s).isSome

/-- The S3 common prefix that swallows key `k` when listing at key-prefix
`p` with delimiter `d`: if `d` occurs in the part of `k` after `p`, the key
is rolled up under `p ++ (rest up to and including the first occurrence of
d)`; otherwise (`none`) the key is reported in Contents.  An empty delimiter
means no roll-up (S3 ignores an empty Delimiter). -/
def commonPrefixOf (p d k : Key) : Option Key :=
  if d = [] then none
  else
    match firstOccur d (k.drop p.length) with
    | some i => some (k.take (p.length + i + d.length))
    | none => none

/-- Append `a` unless already present (used to de-duplicate while keeping
first-occurrence order). -/
def insertUnique (l : List Key) (a : Key) : List Key :=
  if a ∈ l then l else l ++ [a]

/-- De-duplicate keeping the first occurrence of each element. -/
def firstDedup (l : List Key) : List Key := l.foldl insertUnique []

/-- One logical page of an S3 listing: the concatenation over all pages of
the CommonPrefixes groups and of the Contents groups. -/
structure Page where
  commonPrefixes : List Key
  contents : List Key
  deriving DecidableEq, Repr

/-- The result of `paginate(Bucket=bucket, Prefix=p, Delimiter=d)` on the
fixed snapshot `bucket`, as one logical page (see the header comment). -/
def listing (bucket : List Key) (p d : Key) : Page :=
  let rel := bucket.filter (fun k => p.isPrefixOf k)
  { commonPrefixes := firstDedup (rel.filterMap (fun k => commonPrefixOf p d k)),
    contents := rel.filter (fun k => (commonPrefixOf p d k).isNone) }

/-- Length of the longest key in the snapshot. -/
def maxLen (bucket : List Key) : Nat :=
  bucket.foldr (fun k m => max k.length m) 0

/-- A Python dict whose values are either a nested dict (`consDir`) or the
None leaf marker (`consLeaf`), in insertion order. -/
inductive TreeNode where
  | nil : TreeNode
  | consLeaf (k : Key) (rest : TreeNode) : TreeNode
  | consDir (k : Key) (sub : TreeNode) (rest : TreeNode) : TreeNode
  deriving DecidableEq, Repr

/-- Dict assignment `tree[k] = v` (`v = none` is the None marker): overwrite
the value in place if `k` is already a key, else append the entry. -/
def TreeNode.insert : TreeNode → Key → Option TreeNode → TreeNode
  | .nil, k, none => .consLeaf k .nil
  | .nil, k, some t => .consDir k t .nil
  | .consLeaf k' r, k, v =>
    if k = k' then (match v with | none => .consLeaf k' r | some t => .consDir k' t r)
    else .consLeaf k' (TreeNode.insert r k v)
  | .consDir k' s r, k, v =>
    if k = k' then (match v with | none => .consLeaf k' r | some t => .consDir k' t r)
    else .consDir k' s (TreeNode.insert r k v)

/-- Dict lookup: `some none` is the None marker, `some (some t)` a sub-dict. -/
def TreeNode.lookup : TreeNode → Key → Option (Option TreeNode)
  | .nil, _ => none
  | .consLeaf k' r, k => if k = k' then some none else TreeNode.lookup r k
  | .consDir k' s r, k => if k = k' then some (some s) else TreeNode.lookup r k

/-- The keys of the dict, in insertion order (Python `for file in tree`). -/
def TreeNode.keys : TreeNode → List Key
  | .nil => []
  | .consLeaf k r => k :: TreeNode.keys r
  | .consDir k _ r => k :: TreeNode.keys r

/-- All keys mapped to the None leaf marker, at any depth, in order. -/
def TreeNode.leaves : TreeNode → List Key
  | .nil => []
  | .consLeaf k r => k :: TreeNode.leaves r
  | .consDir _ s r => TreeNode.leaves s ++ TreeNode.leaves r

/-- True when no entry at any depth carries the None leaf marker. -/
def TreeNode.noLeafEntries : TreeNode → Bool
  | .nil => true
  | .consLeaf _ _ => false
  | .consDir _ s r => TreeNode.noLeafEntries s && TreeNode.noLeafEntries r

/-- Fuel-indexed embedding of `s3namic.make_tree` (core.py lines 623-659).
For each page: every common prefix `q` gets `tree[q] = make_tree(q, ...)`
(recursively), then, if `with_file_name`, every content key `k` gets
`tree[k] = None`.  The fuel bounds the recursion depth; the wrapper
`make_tree` passes fuel that is always sufficient. -/
def make_tree_fuel (bucket : List Key) (d : Key) (w : Bool) : Nat → Key → TreeNode
  | 0, _ => .nil
  | fuel + 1, p =>
    let pg := listing bucket p d
    let t1 := pg.commonPrefixes.foldl
      (fun acc q => acc.insert q (some (make_tree_fuel bucket d w fuel q))) .nil
    if w then pg.contents.foldl (fun acc k => acc.insert k none) t1 else t1

/-- Embedding of `s3namic.make_tree` on the snapshot `bucket`: the Python
recursion always terminates within `maxLen bucket + 1` levels because each
recursive call goes to a strictly longer key-prefix bounded by the longest
key. -/
def make_tree (bucket : List Key) (p d : Key) (w : Bool) : TreeNode :=
  make_tree_fuel bucket d w (maxLen bucket + 1) p

/-- Embedding of `s3namic.find_files` (core.py lines 734-750):
`[file for file in tree if tree[file] is None]` over
`make_tree(prefix, delimiter, with_file_name=True)` - only the top-level
dict keys are iterated. -/
def find_files (bucket : List Key) (p d : Key) : List Key :=
  let tree := make_tree bucket p d true
  tree.keys.filter (fun k => decide (tree.lookup k = some none))

/-- The match test of `find_file`: substring containment when
`str_contains`, else string equality. -/
def matchKey (nm k : Key) (sc : Bool) : Bool :=
  if sc then strIn nm k else decide (nm = k)

/-- Fuel-indexed embedding of `s3namic.find_file` (core.py lines 687-732):
pass one iterates the paginate result and returns the first matching content
key; only if that pass finds nothing, pass two re-iterates the paginate
result and returns the first non-None recursive result over the common
prefixes. -/
def find_file_fuel (bucket : List Key) (d : Key) (sc : Bool) (nm : Key) :
    Nat → Key → Option Key
  | 0, _ => none
  | fuel + 1, p =>
    let pg := listing bucket p d
    match pg.contents.find? (fun k => matchKey nm k sc) with
    | some k => some k
    | none => pg.commonPrefixes.findSome? (fun q => find_file_fuel bucket d sc nm fuel q)

/-- Embedding of `s3namic.find_file` (same sufficient fuel as `make_tree`). -/
def find_file (bucket : List Key) (nm p d : Key) (sc : Bool) : Option Key :=
  find_file_fuel bucket d sc nm (maxLen bucket + 1) p

/-- The extensions accepted by the membership test in `read_auto`
(core.py line 777). -/
def supportedExts : List Key :=
  [("csv").data, ("json").data, ("txt").data, ("sql").data, ("pkl").data, ("parquet").data]

/-- The tags `t` for which `getattr(self, "read_" + t)` succeeds: the class
defines read_csv, read_excel, read_json, read_txt, read_pkl, read_parquet,
read_image, read_auto, read_thread (core.py lines 12-822).  There is no
`read_sql`. -/
def readMethodTags : List Key :=
  [("csv").data, ("excel").data, ("json").data, ("txt").data, ("pkl").data,
   ("parquet").data, ("image").data, ("auto").data, ("thread").data]

/-- Embedding of `s3namic.read_auto` (core.py lines 752-779).  The format
tag is the explicit `extension` argument if given, else the detected
extension of the file name (whose IndexError propagates).  A tag outside
`supportedExts` reaches the broken `raise_error` lambda, which calls itself
with two arguments while taking one - a TypeError.  A supported tag is
dispatched via `getattr`, an AttributeError when the method is missing.
`decode tag file` abstracts the decoded value the read method returns when
its fetch and decode are not interleaved with another task; the interleaved
shared-buffer behaviour is modelled separately by `runShared`. -/
def read_auto {V : Type} (decode : Key → Key → V) (file : Key) (ext : Option Key) :
    Except PyError V :=
  let tagE : Except PyError Key :=
    match ext with
    | some e => .ok e
    | none => extension file
  match tagE with
  | .error e => .error e
  | .ok tag =>
    if tag ∈ supportedExts then
      if tag ∈ readMethodTags then .ok (decode tag file)
      else .error .attributeError
    else .error .typeError

/-- Embedding of `s3namic._thread_map` (core.py lines 136-157):
`list(ThreadPoolExecutor(max_workers).map(func, iterable))`.  `Executor.map`
collects one result slot per input, in input order, and raises the earliest
(in input order) task exception when the results are consumed, discarding
the rest; this model applies the per-task function in input order, which
captures that collection order and the error propagation.  What value a
task computes under a concurrent schedule is a separate question - the read
methods share the `self.read_content` buffer - and is modelled by
`runShared`, so `max_workers` does not appear on the right-hand side
here. -/
def _thread_map {α β : Type} (f : α → Except PyError β) (l : List α)
    (max_workers : Nat) : Except PyError (List β) :=
  match l with
  | [] => .ok []
  | a :: t =>
    match f a with
    | .error e => .error e
    | .ok b =>
      match _thread_map f t max_workers with
      | .error e => .error e
      | .ok bs => .ok (b :: bs)

/-- Embedding of `s3namic.read_thread` (core.py lines 781-822): list the
files with `find_files`, keep those containing `str_contains` when given,
then `_thread_map` `read_auto` over them. -/
def read_thread {V : Type} (decode : Key → Key → V) (bucket : List Key)
    (p d : Key) (ext : Option Key) (str_contains : Option Key) (workers : Nat) :
    Except PyError (List V) :=
  let files := find_files bucket p d
  let files :=
    match str_contains with
    | some s => files.filter (fun f => strIn s f)
    | none => files
  _thread_map (fun x => read_auto decode x ext) files workers

/-- The file list `read_thread` dispatches over, as a standalone function
(for stating the claims). -/
def filteredFiles (bucket : List Key) (p d : Key) (sc : Option Key) : List Key :=
  match sc with
  | some s => (find_files bucket p d).filter (fun f => strIn s f)
  | none => find_files bucket p d

/-- The fixed snapshot of the end-to-end scenario of the specification:
objects a/1.csv, a/2.csv, b/3.csv and no deeper sub-prefixes. -/
def exBucket : List Key :=
  [("a/1.csv").data, ("a/2.csv").data, ("b/3.csv").data]


/-- Specification-side description of the segment after the last occurrence
of `c` (the whole string when `c` does not occur): the longest suffix not
containing `c`.  Used to state the claims about `extension` independently of
the split-based computation of the source. -/
def suffixAfterLast (c : Char) : List Char → List Char
  | [] => []
  | a :: l => if c ∈ l then suffixAfterLast c l else if a = c then l else a :: l

/-- Specification-side description of the part of the string strictly before
the last occurrence of `c` (empty when `c` does not occur). -/
def prefixBeforeLast (c : Char) : List Char → List Char
  | [] => []
  | a :: l => if c ∈ l then a :: prefixBeforeLast c l else []

/-- One scheduler step of a dispatched read task of `read_thread`:
`fetch i` models task i running `self._read_file` (core.py lines 100-111),
which writes the fetched object body into the instance buffer
`self.read_content` shared by all tasks; `decode i` models task i's read
method decoding `self.read_content` into its return value (for example
`read_csv`, core.py lines 293-302).  A worker is occupied by a task from
its fetch step to its decode step. -/
inductive TaskStep where
  | fetch (i : Nat) : TaskStep
  | decode (i : Nat) : TaskStep
  deriving DecidableEq, Repr

/-- Run a schedule of task steps against the shared buffer: `bodies` lists
the raw object content of the key each task reads (task i fetches
`bodies[i]`), and `dec i b` is the value task i's read method returns when
`self.read_content` holds `b` at its decode step.  Results are kept in one
slot per task index, which is how `list(executor.map(...))` collects them. -/
def runSteps {B V : Type} (bodies : List B) (dec : Nat → B → V) :
    List TaskStep → Option B → List (Option V) → List (Option V)
  | [], _, res => res
  | .fetch i :: rest, _, res => runSteps bodies dec rest (bodies.get? i) res
  | .decode i :: rest, buf, res =>
    match buf with
    | some b => runSteps bodies dec rest (some b) (res.set i (dec i b))
    | none => runSteps bodies dec rest none res

/-- The per-task outputs of running `sched` from an empty buffer. -/
def runShared {B V : Type} (bodies : List B) (dec : Nat → B → V)
    (sched : List TaskStep) : List (Option V) :=
  runSteps bodies dec sched none (List.replicate bodies.length none)

/-- The fetch/decode events of task `i` in a schedule, `true` for fetch. -/
def stepsOf (i : Nat) (sched : List TaskStep) : List Bool :=
  sched.filterMap (fun s =>
    match s with
    | .fetch j => if j = i then some true else none
    | .decode j => if j = i then some false else none)

/-- A schedule is a valid interleaving of `n` tasks when every task fetches
exactly once and afterwards decodes exactly once, and no other task index
occurs. -/
def validSchedule (n : Nat) (sched : List TaskStep) : Bool :=
  (List.range n).all (fun i => stepsOf i sched == [true, false]) &&
  sched.all (fun s =>
    match s with
    | .fetch j => decide (j < n)
    | .decode j => decide (j < n))

/-- The largest number of tasks simultaneously in flight (fetched but not
yet decoded) along a schedule: the number of pool workers the schedule
needs. -/
def maxConcurrent : List TaskStep → Nat → Nat → Nat
  | [], _, mx => mx
  | .fetch _ :: rest, cur, mx => maxConcurrent rest (cur + 1) (max mx (cur + 1))
  | .decode _ :: rest, cur, mx => maxConcurrent rest (cur - 1) mx

/-- The only schedule a single-worker pool can produce: the one worker runs
each task to completion, in input order. -/
def serialSchedule (n : Nat) : List TaskStep :=
  (List.range n).foldr (fun i acc => .fetch i :: .decode i :: acc) []

/-- A two-worker interleaving of two tasks: both fetch before either
decodes, so the second fetch overwrites the shared buffer that the first
task then decodes. -/
def raceSchedule : List TaskStep := [.fetch 0, .fetch 1, .decode 0, .decode 1]

theorem pySplit_ne_nil (c : Char) (l : List Char) : pySplit c l ≠ [] := by
  cases l with
  | nil => simp [pySplit]
  | cons a l => by_cases h : a = c <;> simp [pySplit, h]

theorem pySplit_of_not_mem (c : Char) (l : List Char) (h : c ∉ l) :
    pySplit c l = [l] := by
  induction l with
  | nil => rfl
  | cons a l ih =>
    have hac : ¬ a = c := fun hh => h (hh ▸ List.mem_cons_self a l)
    have hl : c ∉ l := fun hh => h (List.mem_cons_of_mem a hh)
    simp [pySplit, hac, ih hl]

theorem pySplit_tail_ne_nil (c : Char) (l : List Char) (h : c ∈ l) :
    (pySplit c l).tail ≠ [] := by
  induction l with
  | nil => cases h
  | cons a l ih =>
    by_cases hac : a = c
    · simp only [pySplit, if_pos hac, List.tail_cons]
      exact pySplit_ne_nil c l
    · have hl : c ∈ l := by
        rcases List.mem_cons.mp h with h1 | h1
        · exact absurd h1.symm hac
        · exact h1
      simp only [pySplit, if_neg hac, List.tail_cons]
      exact ih hl

theorem pySplit_getLast (c : Char) (l : List Char) :
    (pySplit c l).getLast? = some (suffixAfterLast c l) := by
  induction l with
  | nil => rfl
  | cons a l ih =>
    by_cases hmem : c ∈ l
    · have htail := pySplit_tail_ne_nil c l hmem
      rcases hr : pySplit c l with _ | ⟨y, ys⟩
      · exact absurd hr (pySplit_ne_nil c l)
      · have hys : ys ≠ [] := by
          have := htail
          rw [hr] at this
          simpa using this
        rcases hys2 : ys with _ | ⟨z, zs⟩
        · exact absurd hys2 hys
        by_cases hac : a = c
        · simp only [pySplit, if_pos hac, suffixAfterLast, if_pos hmem]
          rw [hr, hys2] at ih ⊢
          simpa [List.getLast?_cons_cons] using ih
        · simp only [pySplit, if_neg hac, suffixAfterLast, if_pos hmem]
          rw [hr, hys2] at ih ⊢
          simpa [List.getLast?_cons_cons] using ih
    · have hsingle := pySplit_of_not_mem c l hmem
      by_cases hac : a = c
      · simp [pySplit, if_pos hac, hsingle, suffixAfterLast, hmem, hac]
      · simp [pySplit, if_neg hac, hsingle, suffixAfterLast, hmem, hac]

theorem pySplit_append_cons (c : Char) (xs ys : List Char) :
    pySplit c (xs ++ c :: ys) = pySplit c xs ++ pySplit c ys := by
  induction xs with
  | nil => simp [pySplit]
  | cons a xs ih =>
    by_cases hac : a = c
    · simp [pySplit, hac, ih]
    · rcases hr : pySplit c xs with _ | ⟨y, ys2⟩
      · exact absurd hr (pySplit_ne_nil c xs)
      · simp [pySplit, hac, ih, hr]

theorem decomp_last (c : Char) (f : List Char) (h : c ∈ f) :
    f = prefixBeforeLast c f ++ c :: suffixAfterLast c f := by
  induction f with
  | nil => cases h
  | cons a l ih =>
    by_cases hmem : c ∈ l
    · simp only [prefixBeforeLast, if_pos hmem, suffixAfterLast, if_pos hmem,
        List.cons_append]
      exact congrArg (a :: ·) (ih hmem)
    · have hac : a = c := by
        rcases List.mem_cons.mp h with h1 | h1
        · exact h1.symm
        · exact absurd h1 hmem
      simp [prefixBeforeLast, if_neg hmem, suffixAfterLast, hmem, hac]

theorem not_mem_suffixAfterLast (c : Char) (f : List Char) :
    c ∉ suffixAfterLast c f := by
  induction f with
  | nil => simp [suffixAfterLast]
  | cons a l ih =>
    by_cases hmem : c ∈ l
    · simpa [suffixAfterLast, if_pos hmem] using ih
    · by_cases hac : a = c
      · simp [suffixAfterLast, hmem, hac]
      · simp only [suffixAfterLast, if_neg hmem, if_neg hac]
        intro hcc
        rcases List.mem_cons.mp hcc with h1 | h1
        · exact hac h1.symm
        · exact hmem h1

theorem pySplit_decomp (c : Char) (f : List Char) (h : c ∈ f) :
    pySplit c f = pySplit c (prefixBeforeLast c f) ++ [suffixAfterLast c f] := by
  conv_lhs => rw [decomp_last c f h]
  rw [pySplit_append_cons, pySplit_of_not_mem c _ (not_mem_suffixAfterLast c f)]

theorem extension_of_dot (f : Key) (hc : '.' ∈ f) :
    extension f =
      .ok (if suffixAfterLast '.' f = ("gz").data ∨ suffixAfterLast '.' f = ("bz2").data
           then suffixAfterLast '.' (prefixBeforeLast '.' f)
           else suffixAfterLast '.' f) := by
  have hparts := pySplit_decomp '.' f hc
  have hne := pySplit_ne_nil '.' (prefixBeforeLast '.' f)
  have hrev : (pySplit '.' f).reverse =
      suffixAfterLast '.' f :: (pySplit '.' (prefixBeforeLast '.' f)).reverse := by
    rw [hparts, List.reverse_append]
    rfl
  have h0 : pyNegIdx (pySplit '.' f) 0 = some (suffixAfterLast '.' f) := by
    unfold pyNegIdx
    rw [hrev]
    rfl
  have h1 : pyNegIdx (pySplit '.' f) 1 =
      some (suffixAfterLast '.' (prefixBeforeLast '.' f)) := by
    unfold pyNegIdx
    rw [hrev]
    have hh : (pySplit '.' (prefixBeforeLast '.' f)).reverse.get? 0 =
        (pySplit '.' (prefixBeforeLast '.' f)).reverse.head? := by
      cases hcase : (pySplit '.' (prefixBeforeLast '.' f)).reverse <;> rfl
    calc (suffixAfterLast '.' f :: (pySplit '.' (prefixBeforeLast '.' f)).reverse).get? 1
        = (pySplit '.' (prefixBeforeLast '.' f)).reverse.get? 0 := rfl
      _ = (pySplit '.' (prefixBeforeLast '.' f)).reverse.head? := hh
      _ = (pySplit '.' (prefixBeforeLast '.' f)).getLast? := List.head?_reverse _
      _ = some (suffixAfterLast '.' (prefixBeforeLast '.' f)) := pySplit_getLast _ _
  by_cases hcond : suffixAfterLast '.' f = ("gz").data ∨ suffixAfterLast '.' f = ("bz2").data
  · simp [extension, h0, h1, hcond]
  · simp [extension, h0, h1, hcond]

theorem extension_of_not_dot (f : Key) (hc : '.' ∉ f) :
    extension f =
      if f = ("gz").data ∨ f = ("bz2").data then .error .indexError else .ok f := by
  have hparts := pySplit_of_not_mem '.' f hc
  have h0 : pyNegIdx (pySplit '.' f) 0 = some f := by rw [hparts]; rfl
  have h1 : pyNegIdx (pySplit '.' f) 1 = none := by rw [hparts]; rfl
  by_cases hcond : f = ("gz").data ∨ f = ("bz2").data
  · simp [extension, h0, h1, hcond]
  · simp [extension, h0, h1, hcond]

theorem firstOccur_some (d r : Key) (i : Nat) (h : firstOccur d r = some i) :
    d.isPrefixOf (r.drop i) = true := by
  induction r generalizing i with
  | nil =>
    simp only [firstOccur] at h
    split at h
    · rename_i hp
      cases h
      simpa using hp
    · cases h
  | cons c r ih =>
    simp only [firstOccur] at h
    split at h
    · rename_i hp
      cases h
      simpa using hp
    · rcases Option.map_eq_some'.mp h with ⟨j, hj, rfl⟩
      simpa using ih j hj

theorem firstOccur_none (d r : Key) (h : firstOccur d r = none) (j : Nat) :
    d.isPrefixOf (r.drop j) = false := by
  induction r generalizing j with
  | nil =>
    simp only [firstOccur] at h
    split at h
    · cases h
    · rename_i hp
      simp only [Bool.not_eq_true] at hp
      rw [List.drop_nil]
      exact hp
  | cons c r ih =>
    simp only [firstOccur] at h
    split at h
    · cases h
    · rename_i hp
      simp only [Bool.not_eq_true] at hp
      have h2 : firstOccur d r = none := by
        cases hfo : firstOccur d r with
        | none => rfl
        | some j2 => rw [hfo] at h; cases h
      cases j with
      | zero => rw [List.drop_zero]; exact hp
      | succ j => rw [List.drop_succ_cons]; exact ih h2 j

theorem firstOccur_ne_none (d r : Key) (j : Nat)
    (h : d.isPrefixOf (r.drop j) = true) : firstOccur d r ≠ none := by
  intro hn
  rw [firstOccur_none d r hn j] at h
  cases h

theorem strIn_iff (nm s : Key) : strIn nm s = true ↔ ∃ j, nm <+: s.drop j := by
  constructor
  · intro h
    rcases Option.isSome_iff_exists.mp h with ⟨i, hi⟩
    exact ⟨i, List.isPrefixOf_iff_prefix.mp (firstOccur_some nm s i hi)⟩
  · rintro ⟨j, hj⟩
    have h2 := firstOccur_ne_none nm s j (List.isPrefixOf_iff_prefix.mpr hj)
    unfold strIn
    cases hfo : firstOccur nm s with
    | none => exact absurd hfo h2
    | some i => rfl

theorem length_le_maxLen (bucket : List Key) (k : Key) (h : k ∈ bucket) :
    k.length ≤ maxLen bucket := by
  induction bucket with
  | nil => cases h
  | cons b t ih =>
    simp only [maxLen, List.foldr_cons]
    rcases List.mem_cons.mp h with rfl | h2
    · exact le_max_left _ _
    · exact le_trans (ih h2) (le_max_right _ _)

theorem mem_foldl_insertUnique (l : List Key) (acc : List Key) (a : Key) :
    a ∈ l.foldl insertUnique acc ↔ a ∈ acc ∨ a ∈ l := by
  induction l generalizing acc with
  | nil => simp
  | cons x t ih =>
    simp only [List.foldl_cons, ih]
    unfold insertUnique
    by_cases hx : x ∈ acc
    · rw [if_pos hx]
      constructor
      · rintro (h1 | h1)
        · exact Or.inl h1
        · exact Or.inr (List.mem_cons_of_mem _ h1)
      · rintro (h1 | h1)
        · exact Or.inl h1
        · rcases List.mem_cons.mp h1 with rfl | h2
          · exact Or.inl hx
          · exact Or.inr h2
    · rw [if_neg hx]
      simp [List.mem_append, List.mem_cons, or_assoc]

theorem mem_firstDedup (l : List Key) (a : Key) : a ∈ firstDedup l ↔ a ∈ l := by
  unfold firstDedup
  simpa using mem_foldl_insertUnique l [] a

theorem nodup_foldl_insertUnique (l : List Key) (acc : List Key) (h : acc.Nodup) :
    (l.foldl insertUnique acc).Nodup := by
  induction l generalizing acc with
  | nil => simpa
  | cons x t ih =>
    simp only [List.foldl_cons]
    apply ih
    unfold insertUnique
    by_cases hx : x ∈ acc
    · rwa [if_pos hx]
    · rw [if_neg hx]
      simp [List.nodup_append, h, hx]

theorem nodup_firstDedup (l : List Key) : (firstDedup l).Nodup :=
  nodup_foldl_insertUnique l [] List.nodup_nil

theorem mem_commonPrefixes (bucket : List Key) (p d q : Key) :
    q ∈ (listing bucket p d).commonPrefixes ↔
      ∃ k, k ∈ bucket ∧ p.isPrefixOf k = true ∧ commonPrefixOf p d k = some q := by
  simp only [listing, mem_firstDedup, List.mem_filterMap, List.mem_filter]
  constructor
  · rintro ⟨k, ⟨hk, hpk⟩, hq⟩
    exact ⟨k, hk, hpk, hq⟩
  · rintro ⟨k, hk, hpk, hq⟩
    exact ⟨k, ⟨hk, hpk⟩, hq⟩

theorem mem_contents (bucket : List Key) (p d k : Key) :
    k ∈ (listing bucket p d).contents ↔
      k ∈ bucket ∧ p.isPrefixOf k = true ∧ commonPrefixOf p d k = none := by
  simp only [listing, List.mem_filter, Option.isNone_iff_eq_none, and_assoc]

theorem commonPrefixOf_eq_some (p d k q : Key) (h : commonPrefixOf p d k = some q) :
    d ≠ [] ∧ ∃ i, firstOccur d (k.drop p.length) = some i ∧
      q = k.take (p.length + i + d.length) := by
  unfold commonPrefixOf at h
  split at h
  · cases h
  · rename_i hd
    refine ⟨hd, ?_⟩
    split at h
    · rename_i i hi
      cases h
      exact ⟨i, hi, rfl⟩
    · cases h

theorem commonPrefix_bounds (p d k q : Key) (h : commonPrefixOf p d k = some q) :
    p.length < q.length ∧ q.length ≤ k.length ∧ q.isPrefixOf k = true := by
  obtain ⟨hd, i, hi, rfl⟩ := commonPrefixOf_eq_some p d k q h
  have hpre := firstOccur_some d _ i hi
  have hlen : d.length ≤ ((k.drop p.length).drop i).length :=
    (List.isPrefixOf_iff_prefix.mp hpre).length_le
  have hd1 : 1 ≤ d.length := by
    cases d with
    | nil => exact absurd rfl hd
    | cons _ _ => simp
  simp only [List.length_drop] at hlen
  refine ⟨?_, ?_, ?_⟩
  · rw [List.length_take]
    omega
  · rw [List.length_take]
    omega
  · exact List.isPrefixOf_iff_prefix.mpr (List.take_prefix _ _)

theorem commonPrefixOf_self_ne_none (p d k q : Key) (h : commonPrefixOf p d k = some q) :
    commonPrefixOf p d q ≠ none := by
  obtain ⟨hd, i, hi, rfl⟩ := commonPrefixOf_eq_some p d k q h
  have hpre := firstOccur_some d _ i hi
  have he : (k.take (p.length + i + d.length)).drop p.length
      = (k.drop p.length).take (i + d.length) := by
    rw [List.drop_take]
    congr 1
    omega
  have h2 : d.isPrefixOf (((k.drop p.length).take (i + d.length)).drop i) = true := by
    rw [List.drop_take]
    have h4 : i + d.length - i = d.length := by omega
    rw [h4]
    have h3 : ((k.drop p.length).drop i).take d.length = d := by
      have hpp := List.isPrefixOf_iff_prefix.mp hpre
      exact (List.prefix_iff_eq_take.mp hpp).symm
    rw [h3]
    exact List.isPrefixOf_iff_prefix.mpr List.prefix_rfl
  have hne := firstOccur_ne_none d ((k.drop p.length).take (i + d.length)) i h2
  unfold commonPrefixOf
  rw [if_neg hd, he]
  cases hfo : firstOccur d ((k.drop p.length).take (i + d.length)) with
  | none => exact absurd hfo hne
  | some j => simp

theorem commonPrefix_not_content (bucket : List Key) (p d q : Key)
    (hq : q ∈ (listing bucket p d).commonPrefixes) :
    q ∉ (listing bucket p d).contents := by
  rcases (mem_commonPrefixes bucket p d q).mp hq with ⟨k, _, _, hcp⟩
  intro hin
  rcases (mem_contents bucket p d q).mp hin with ⟨_, _, hnone⟩
  exact commonPrefixOf_self_ne_none p d k q hcp hnone

theorem lookup_insert_self (t : TreeNode) (k : Key) (v : Option TreeNode) :
    (t.insert k v).lookup k = some v := by
  induction t with
  | nil => cases v <;> simp [TreeNode.insert, TreeNode.lookup]
  | consLeaf k2 r ih =>
    by_cases hk : k = k2
    · cases v <;> simp [TreeNode.insert, hk, TreeNode.lookup]
    · simp [TreeNode.insert, hk, TreeNode.lookup, ih]
  | consDir k2 s r ih1 ih2 =>
    by_cases hk : k = k2
    · cases v <;> simp [TreeNode.insert, hk, TreeNode.lookup]
    · simp [TreeNode.insert, hk, TreeNode.lookup, ih2]

theorem lookup_insert_ne (t : TreeNode) (k k2 : Key) (v : Option TreeNode)
    (h : k2 ≠ k) : (t.insert k v).lookup k2 = t.lookup k2 := by
  induction t with
  | nil => cases v <;> simp [TreeNode.insert, TreeNode.lookup, h]
  | consLeaf k3 r ih =>
    by_cases hk : k = k3
    · subst hk
      cases v <;> simp [TreeNode.insert, TreeNode.lookup, h]
    · by_cases hk2 : k2 = k3 <;> simp [TreeNode.insert, TreeNode.lookup, hk, hk2, ih]
  | consDir k3 s r ih1 ih2 =>
    by_cases hk : k = k3
    · subst hk
      cases v <;> simp [TreeNode.insert, TreeNode.lookup, h]
    · by_cases hk2 : k2 = k3 <;> simp [TreeNode.insert, TreeNode.lookup, hk, hk2, ih2]

theorem lookup_foldl_insert_not_mem (vf : Key → Option TreeNode) (l : List Key)
    (t : TreeNode) (q : Key) (h : q ∉ l) :
    (l.foldl (fun acc x => acc.insert x (vf x)) t).lookup q = t.lookup q := by
  induction l generalizing t with
  | nil => rfl
  | cons x xs ih =>
    simp only [List.foldl_cons]
    have hq : q ∉ xs := fun hh => h (List.mem_cons_of_mem _ hh)
    have hqx : q ≠ x := fun hh => h (hh ▸ List.mem_cons_self x xs)
    rw [ih _ hq, lookup_insert_ne _ _ _ _ hqx]

theorem lookup_foldl_insert_mem (vf : Key → Option TreeNode) (l : List Key)
    (t : TreeNode) (q : Key) (hnd : l.Nodup) (h : q ∈ l) :
    (l.foldl (fun acc x => acc.insert x (vf x)) t).lookup q = some (vf q) := by
  induction l generalizing t with
  | nil => cases h
  | cons x xs ih =>
    simp only [List.foldl_cons]
    rcases List.mem_cons.mp h with rfl | hmem
    · have hnx : q ∉ xs := (List.nodup_cons.mp hnd).1
      rw [lookup_foldl_insert_not_mem vf xs _ q hnx, lookup_insert_self]
    · exact ih _ (List.nodup_cons.mp hnd).2 hmem

theorem lookup_foldl_leaf_mem (l : List Key) (t : TreeNode) (q : Key) (h : q ∈ l) :
    (l.foldl (fun acc x => acc.insert x none) t).lookup q = some none := by
  induction l generalizing t with
  | nil => cases h
  | cons x xs ih =>
    simp only [List.foldl_cons]
    by_cases hmem : q ∈ xs
    · exact ih _ hmem
    · have hqx : q = x := by
        rcases List.mem_cons.mp h with rfl | hm
        · rfl
        · exact absurd hm hmem
      subst hqx
      rw [lookup_foldl_insert_not_mem (fun _ => none) xs _ q hmem, lookup_insert_self]

theorem listing_long (bucket : List Key) (p d : Key) (h : maxLen bucket < p.length) :
    listing bucket p d = { commonPrefixes := [], contents := [] } := by
  have hrel : bucket.filter (fun k => p.isPrefixOf k) = [] := by
    rw [List.filter_eq_nil_iff]
    intro k hk hpre
    have hle := (List.isPrefixOf_iff_prefix.mp hpre).length_le
    have hml := length_le_maxLen bucket k hk
    omega
  simp [listing, hrel, firstDedup]

theorem make_tree_fuel_eq_canon (bucket : List Key) (d : Key) (w : Bool) :
    ∀ f p, maxLen bucket + 1 - p.length ≤ f →
      make_tree_fuel bucket d w f p =
        make_tree_fuel bucket d w (maxLen bucket + 1 - p.length) p := by
  intro f
  induction f using Nat.strong_induction_on with
  | _ f ih =>
    intro p hf
    match f with
    | 0 =>
      have h0 : maxLen bucket + 1 - p.length = 0 := Nat.le_zero.mp hf
      rw [h0]
    | f2 + 1 =>
      by_cases hp : maxLen bucket + 1 ≤ p.length
      · have h0 : maxLen bucket + 1 - p.length = 0 := by omega
        rw [h0]
        have hlist := listing_long bucket p d (by omega)
        simp [make_tree_fuel, hlist]
      · have hc : maxLen bucket + 1 - p.length = (maxLen bucket - p.length) + 1 := by
          omega
        rw [hc]
        simp only [make_tree_fuel]
        have hfold : (listing bucket p d).commonPrefixes.foldl
              (fun (acc : TreeNode) q =>
                acc.insert q (some (make_tree_fuel bucket d w f2 q))) .nil
            = (listing bucket p d).commonPrefixes.foldl
              (fun (acc : TreeNode) q =>
                acc.insert q (some (make_tree_fuel bucket d w (maxLen bucket - p.length) q)))
              .nil := by
          apply List.foldl_ext
          intro acc q hq
          rcases (mem_commonPrefixes bucket p d q).mp hq with ⟨k, hk, hpk, hcp⟩
          obtain ⟨hlt, hle, _⟩ := commonPrefix_bounds p d k q hcp
          have hkb := length_le_maxLen bucket k hk
          have h1 := ih f2 (by omega) q (by omega)
          have h2 := ih (maxLen bucket - p.length) (by omega) q (by omega)
          rw [h1, h2]
        rw [hfold]

theorem make_tree_fuel_irrel (bucket : List Key) (d : Key) (w : Bool)
    (f1 f2 : Nat) (p : Key) (h1 : maxLen bucket + 1 - p.length ≤ f1)
    (h2 : maxLen bucket + 1 - p.length ≤ f2) :
    make_tree_fuel bucket d w f1 p = make_tree_fuel bucket d w f2 p := by
  rw [make_tree_fuel_eq_canon bucket d w f1 p h1,
    make_tree_fuel_eq_canon bucket d w f2 p h2]

theorem make_tree_eq (bucket : List Key) (p d : Key) (w : Bool) :
    make_tree bucket p d w =
      (if w then (listing bucket p d).contents.foldl
          (fun (acc : TreeNode) k => acc.insert k none)
          ((listing bucket p d).commonPrefixes.foldl
            (fun (acc : TreeNode) q => acc.insert q (some (make_tree bucket q d w))) .nil)
       else (listing bucket p d).commonPrefixes.foldl
          (fun (acc : TreeNode) q => acc.insert q (some (make_tree bucket q d w))) .nil) := by
  have hfold : (listing bucket p d).commonPrefixes.foldl
        (fun (acc : TreeNode) q =>
          acc.insert q (some (make_tree_fuel bucket d w (maxLen bucket) q))) .nil
      = (listing bucket p d).commonPrefixes.foldl
        (fun (acc : TreeNode) q => acc.insert q (some (make_tree bucket q d w))) .nil := by
    apply List.foldl_ext
    intro acc q hq
    rcases (mem_commonPrefixes bucket p d q).mp hq with ⟨k, hk, hpk, hcp⟩
    obtain ⟨hlt, hle, _⟩ := commonPrefix_bounds p d k q hcp
    have hkb := length_le_maxLen bucket k hk
    rw [show make_tree bucket q d w
      = make_tree_fuel bucket d w (maxLen bucket + 1) q from rfl]
    rw [make_tree_fuel_irrel bucket d w (maxLen bucket) (maxLen bucket + 1) q
      (by omega) (by omega)]
  have hs : maxLen bucket + 1 = Nat.succ (maxLen bucket) := rfl
  conv_lhs => rw [make_tree, hs]
  conv_lhs => simp only [make_tree_fuel]
  rw [hfold]

theorem make_tree_lookup_commonPrefix (bucket : List Key) (p d : Key) (w : Bool)
    (q : Key) (hq : q ∈ (listing bucket p d).commonPrefixes) :
    (make_tree bucket p d w).lookup q = some (some (make_tree bucket q d w)) := by
  rw [make_tree_eq]
  have hnd : (listing bucket p d).commonPrefixes.Nodup := by
    simp only [listing]
    exact nodup_firstDedup _
  have hdir := lookup_foldl_insert_mem (fun q2 => some (make_tree bucket q2 d w))
    (listing bucket p d).commonPrefixes .nil q hnd hq
  cases w with
  | false => exact hdir
  | true =>
    have hnc : q ∉ (listing bucket p d).contents :=
      commonPrefix_not_content bucket p d q hq
    rw [if_pos rfl]
    rw [lookup_foldl_insert_not_mem (fun _ => none) (listing bucket p d).contents _ q hnc]
    exact hdir

theorem make_tree_lookup_content (bucket : List Key) (p d : Key) (k : Key)
    (hk : k ∈ (listing bucket p d).contents) :
    (make_tree bucket p d true).lookup k = some none := by
  rw [make_tree_eq, if_pos rfl]
  exact lookup_foldl_leaf_mem (listing bucket p d).contents _ k hk

theorem noLeaf_insert (t : TreeNode) (k : Key) (sub : TreeNode)
    (ht : t.noLeafEntries = true) (hs : sub.noLeafEntries = true) :
    (t.insert k (some sub)).noLeafEntries = true := by
  induction t with
  | nil => simp [TreeNode.insert, TreeNode.noLeafEntries, hs]
  | consLeaf k2 r ih => simp [TreeNode.noLeafEntries] at ht
  | consDir k2 s r ih1 ih2 =>
    simp only [TreeNode.noLeafEntries, Bool.and_eq_true] at ht
    by_cases hk : k = k2
    · simp [TreeNode.insert, hk, TreeNode.noLeafEntries, hs, ht.2]
    · simp [TreeNode.insert, hk, TreeNode.noLeafEntries, ht.1, ih2 ht.2]

theorem noLeaf_fold_dirs (vf : Key → TreeNode) (l : List Key) (t : TreeNode)
    (ht : t.noLeafEntries = true) (hv : ∀ q ∈ l, (vf q).noLeafEntries = true) :
    (l.foldl (fun acc q => acc.insert q (some (vf q))) t).noLeafEntries = true := by
  induction l generalizing t with
  | nil => exact ht
  | cons x xs ih =>
    simp only [List.foldl_cons]
    exact ih _ (noLeaf_insert t x (vf x) ht (hv x (List.mem_cons_self x xs)))
      (fun q hq => hv q (List.mem_cons_of_mem _ hq))

theorem make_tree_fuel_noLeaf (bucket : List Key) (d : Key) :
    ∀ fuel p, (make_tree_fuel bucket d false fuel p).noLeafEntries = true := by
  intro fuel
  induction fuel with
  | zero => intro p; rfl
  | succ f ih =>
    intro p
    have h2 := noLeaf_fold_dirs (fun q => make_tree_fuel bucket d false f q)
      (listing bucket p d).commonPrefixes .nil rfl (fun q hq => ih q)
    simpa [make_tree_fuel] using h2

theorem findSome?_ext {α β : Type} (f g : α → Option β) (l : List α)
    (h : ∀ a ∈ l, f a = g a) : l.findSome? f = l.findSome? g := by
  induction l with
  | nil => rfl
  | cons x xs ih =>
    simp only [List.findSome?_cons]
    rw [h x (List.mem_cons_self x xs)]
    cases g x with
    | some b => rfl
    | none => exact ih (fun a ha => h a (List.mem_cons_of_mem _ ha))

theorem findSome?_isSome_of_mem {α β : Type} (f : α → Option β) (l : List α) (a : α)
    (ha : a ∈ l) (h : (f a).isSome = true) : (l.findSome? f).isSome = true := by
  induction l with
  | nil => cases ha
  | cons x xs ih =>
    simp only [List.findSome?_cons]
    cases hfx : f x with
    | some b => simp
    | none =>
      rcases List.mem_cons.mp ha with rfl | hmem
      · rw [hfx] at h
        cases h
      · exact ih hmem

theorem find_file_fuel_eq_canon (bucket : List Key) (d : Key) (sc : Bool) (nm : Key) :
    ∀ f p, maxLen bucket + 1 - p.length ≤ f →
      find_file_fuel bucket d sc nm f p =
        find_file_fuel bucket d sc nm (maxLen bucket + 1 - p.length) p := by
  intro f
  induction f using Nat.strong_induction_on with
  | _ f ih =>
    intro p hf
    match f with
    | 0 =>
      have h0 : maxLen bucket + 1 - p.length = 0 := Nat.le_zero.mp hf
      rw [h0]
    | f2 + 1 =>
      by_cases hp : maxLen bucket + 1 ≤ p.length
      · have h0 : maxLen bucket + 1 - p.length = 0 := by omega
        rw [h0]
        have hlist := listing_long bucket p d (by omega)
        simp [find_file_fuel, hlist]
      · have hc : maxLen bucket + 1 - p.length = (maxLen bucket - p.length) + 1 := by
          omega
        rw [hc]
        simp only [find_file_fuel]
        have hfs : (listing bucket p d).commonPrefixes.findSome?
              (fun q => find_file_fuel bucket d sc nm f2 q)
            = (listing bucket p d).commonPrefixes.findSome?
              (fun q => find_file_fuel bucket d sc nm (maxLen bucket - p.length) q) := by
          apply findSome?_ext
          intro q hq
          rcases (mem_commonPrefixes bucket p d q).mp hq with ⟨k, hk, hpk, hcp⟩
          obtain ⟨hlt, hle, _⟩ := commonPrefix_bounds p d k q hcp
          have hkb := length_le_maxLen bucket k hk
          rw [ih f2 (by omega) q (by omega),
            ih (maxLen bucket - p.length) (by omega) q (by omega)]
        rw [hfs]

theorem find_file_fuel_irrel (bucket : List Key) (d : Key) (sc : Bool) (nm : Key)
    (f1 f2 : Nat) (p : Key) (h1 : maxLen bucket + 1 - p.length ≤ f1)
    (h2 : maxLen bucket + 1 - p.length ≤ f2) :
    find_file_fuel bucket d sc nm f1 p = find_file_fuel bucket d sc nm f2 p := by
  rw [find_file_fuel_eq_canon bucket d sc nm f1 p h1,
    find_file_fuel_eq_canon bucket d sc nm f2 p h2]

theorem find_file_eq (bucket : List Key) (nm p d : Key) (sc : Bool) :
    find_file bucket nm p d sc =
      (match (listing bucket p d).contents.find? (fun k => matchKey nm k sc) with
       | some k => some k
       | none => (listing bucket p d).commonPrefixes.findSome?
           (fun q => find_file bucket nm q d sc)) := by
  have hfs : (listing bucket p d).commonPrefixes.findSome?
        (fun q => find_file_fuel bucket d sc nm (maxLen bucket) q)
      = (listing bucket p d).commonPrefixes.findSome?
        (fun q => find_file bucket nm q d sc) := by
    apply findSome?_ext
    intro q hq
    rcases (mem_commonPrefixes bucket p d q).mp hq with ⟨k, hk, hpk, hcp⟩
    obtain ⟨hlt, hle, _⟩ := commonPrefix_bounds p d k q hcp
    have hkb := length_le_maxLen bucket k hk
    rw [show find_file bucket nm q d sc
      = find_file_fuel bucket d sc nm (maxLen bucket + 1) q from rfl]
    rw [find_file_fuel_irrel bucket d sc nm (maxLen bucket) (maxLen bucket + 1) q
      (by omega) (by omega)]
  have hs : maxLen bucket + 1 = Nat.succ (maxLen bucket) := rfl
  conv_lhs => rw [find_file, hs]
  conv_lhs => simp only [find_file_fuel]
  rw [hfs]

theorem find_file_fuel_sound (bucket : List Key) (d : Key) (sc : Bool) (nm : Key) :
    ∀ f p r, find_file_fuel bucket d sc nm f p = some r →
      r ∈ bucket ∧ p.isPrefixOf r = true ∧ matchKey nm r sc = true := by
  intro f
  induction f with
  | zero => intro p r h; cases h
  | succ f2 ih =>
    intro p r h
    simp only [find_file_fuel] at h
    cases hfind : (listing bucket p d).contents.find? (fun k => matchKey nm k sc) with
    | some kf =>
      rw [hfind] at h
      injection h with he
      subst he
      have hmem := List.mem_of_find?_eq_some hfind
      have hpred := List.find?_some hfind
      rcases (mem_contents bucket p d kf).mp hmem with ⟨hb, hpk, _⟩
      exact ⟨hb, hpk, hpred⟩
    | none =>
      rw [hfind] at h
      rcases List.exists_of_findSome?_eq_some h with ⟨q, hq, hrec⟩
      obtain ⟨hb, hqr, hm⟩ := ih q r hrec
      rcases (mem_commonPrefixes bucket p d q).mp hq with ⟨k, hk, hpk, hcp⟩
      obtain ⟨hlt, hle, hqk⟩ := commonPrefix_bounds p d k q hcp
      have hpq : p <+: q :=
        List.prefix_of_prefix_length_le (List.isPrefixOf_iff_prefix.mp hpk)
          (List.isPrefixOf_iff_prefix.mp hqk) (by omega)
      exact ⟨hb, List.isPrefixOf_iff_prefix.mpr
        (hpq.trans (List.isPrefixOf_iff_prefix.mp hqr)), hm⟩

theorem key_routed (bucket : List Key) (p d k : Key) (hk : k ∈ bucket)
    (hpk : p.isPrefixOf k = true) :
    k ∈ (listing bucket p d).contents ∨
      ∃ q, q ∈ (listing bucket p d).commonPrefixes ∧ q.isPrefixOf k = true ∧
        p.length < q.length ∧ q.length ≤ maxLen bucket := by
  cases hcp : commonPrefixOf p d k with
  | none => exact Or.inl ((mem_contents bucket p d k).mpr ⟨hk, hpk, hcp⟩)
  | some q =>
    have hq : q ∈ (listing bucket p d).commonPrefixes :=
      (mem_commonPrefixes bucket p d q).mpr ⟨k, hk, hpk, hcp⟩
    obtain ⟨hlt, hle, hqk⟩ := commonPrefix_bounds p d k q hcp
    exact Or.inr ⟨q, hq, hqk, hlt, le_trans hle (length_le_maxLen bucket k hk)⟩

theorem find_file_fuel_complete (bucket : List Key) (d : Key) (sc : Bool) (nm : Key) :
    ∀ f p, maxLen bucket + 1 - p.length ≤ f →
      (∃ k, k ∈ bucket ∧ p.isPrefixOf k = true ∧ matchKey nm k sc = true) →
      (find_file_fuel bucket d sc nm f p).isSome = true := by
  intro f
  induction f using Nat.strong_induction_on with
  | _ f ih =>
    intro p hf hex
    obtain ⟨k, hk, hpk, hm⟩ := hex
    match f with
    | 0 =>
      exfalso
      have h1 := (List.isPrefixOf_iff_prefix.mp hpk).length_le
      have h2 := length_le_maxLen bucket k hk
      omega
    | f2 + 1 =>
      simp only [find_file_fuel]
      cases hfind : (listing bucket p d).contents.find? (fun k2 => matchKey nm k2 sc) with
      | some k2 => simp
      | none =>
        have hnone := List.find?_eq_none.mp hfind
        rcases key_routed bucket p d k hk hpk with hin | ⟨q, hq, hqk, hlt, hle⟩
        · exact absurd hm (by simpa using hnone k hin)
        · have h1 := (List.isPrefixOf_iff_prefix.mp hpk).length_le
          have hrec := ih f2 (by omega) q (by omega) ⟨k, hk, hqk, hm⟩
          exact findSome?_isSome_of_mem _ _ q hq hrec

theorem thread_map_error {α β : Type} (f : α → Except PyError β) :
    ∀ (l : List α) (w : Nat) (x : α), x ∈ l → (∃ e, f x = .error e) →
      ∃ e2, _thread_map f l w = .error e2 := by
  intro l
  induction l with
  | nil => intro w x hx; cases hx
  | cons a t ih =>
    intro w x hx hex
    obtain ⟨e, he⟩ := hex
    simp only [_thread_map]
    cases hfa : f a with
    | error e0 => exact ⟨e0, rfl⟩
    | ok b =>
      rcases List.mem_cons.mp hx with rfl | hmem
      · rw [hfa] at he
        cases he
      · obtain ⟨e2, he2⟩ := ih w x hmem ⟨e, he⟩
        rw [he2]
        exact ⟨e2, rfl⟩

theorem read_thread_eq {V : Type} (decode : Key → Key → V) (bucket : List Key)
    (p d : Key) (ext : Option Key) (sc : Option Key) (w : Nat) :
    read_thread decode bucket p d ext sc w =
      _thread_map (fun x => read_auto decode x ext) (filteredFiles bucket p d sc) w := by
  cases sc <;> rfl

theorem read_auto_unsupported {V : Type} (decode : Key → Key → V) (file tag : Key)
    (h : tag ∉ supportedExts) :
    read_auto decode file (some tag) = .error .typeError := by
  simp [read_auto, h]

/-- C1: the claim states that `find_files(prefix, delimiter)` returns every
leaf entry of `make_tree(prefix, delimiter, with_file_name=True)` at any
depth.  The code filters only the top-level dict keys, so on the snapshot
a/1.csv, a/2.csv, b/3.csv (the end-to-end scenario of the specification)
`find_files("", "/")` returns the empty list while the leaf set of the tree
is all three keys: the claim fails on the code. -/
theorem c1_find_files_shallow :
    find_files exBucket [] (("/").data) = [] ∧
    (make_tree exBucket [] (("/").data) true).leaves =
      [("a/1.csv").data, ("a/2.csv").data, ("b/3.csv").data] ∧
    ("a/1.csv").data ∈ (make_tree exBucket [] (("/").data) true).leaves ∧
    ("a/1.csv").data ∉ find_files exBucket [] (("/").data) :=
  ⟨rfl, rfl, by decide, by decide⟩

/-- C2: `make_tree` inserts, for every common prefix `q` of the page listed
at `p`, the recursively built tree as `tree[q]`, and, only with
`with_file_name`, the None marker as `tree[k]` for every content key `k`;
on the snapshot a/1.csv, a/2.csv, b/3.csv the root tree is the nested dict
of the claim (consDir/consLeaf spell the dict entries in insertion order). -/
theorem c2_make_tree_structure :
    (∀ (bucket : List Key) (p d : Key) (w : Bool) (q : Key),
        q ∈ (listing bucket p d).commonPrefixes →
        (make_tree bucket p d w).lookup q = some (some (make_tree bucket q d w))) ∧
    (∀ (bucket : List Key) (p d k : Key),
        k ∈ (listing bucket p d).contents →
        (make_tree bucket p d true).lookup k = some none) ∧
    make_tree exBucket [] (("/").data) true =
      .consDir (("a/").data)
        (.consLeaf (("a/1.csv").data) (.consLeaf (("a/2.csv").data) .nil))
        (.consDir (("b/").data) (.consLeaf (("b/3.csv").data) .nil) .nil) :=
  ⟨make_tree_lookup_commonPrefix, make_tree_lookup_content, rfl⟩

/-- Witness for C2 at the concrete snapshot: the common prefix a/ of the
root listing is mapped to the recursively built subtree, and the content
key a/1.csv of the listing at a/ is mapped to the None marker. -/
theorem c2_make_tree_structure_witness :
    ((("a/").data ∈ (listing exBucket [] (("/").data)).commonPrefixes) ∧
      (make_tree exBucket [] (("/").data) true).lookup (("a/").data) =
        some (some (make_tree exBucket (("a/").data) (("/").data) true))) ∧
    ((("a/1.csv").data ∈ (listing exBucket (("a/").data) (("/").data)).contents) ∧
      (make_tree exBucket (("a/").data) (("/").data) true).lookup (("a/1.csv").data) =
        some none) :=
  ⟨⟨by decide, c2_make_tree_structure.1 exBucket [] (("/").data) true (("a/").data)
      (by decide)⟩,
   ⟨by decide, (c2_make_tree_structure.2).1 exBucket (("a/").data) (("/").data)
      (("a/1.csv").data) (by decide)⟩⟩

/-- C3: for every file name containing a dot, `extension` returns the
segment after the last dot (the longest dot-free suffix) unless that
segment is gz or bz2, in which case it returns the segment immediately
preceding it; in particular on a/b.csv.gz it returns csv and on notes.txt
it returns txt. -/
theorem c3_extension_rule :
    (∀ f : Key, '.' ∈ f →
        extension f = .ok (if suffixAfterLast '.' f = ("gz").data ∨
              suffixAfterLast '.' f = ("bz2").data
            then suffixAfterLast '.' (prefixBeforeLast '.' f)
            else suffixAfterLast '.' f)) ∧
    extension (("a/b.csv.gz").data) = .ok (("csv").data) ∧
    extension (("notes.txt").data) = .ok (("txt").data) :=
  ⟨extension_of_dot, by rfl, by rfl⟩

/-- Witness for C3 at the concrete name a/b.csv.gz. -/
theorem c3_extension_rule_witness :
    ('.' ∈ ("a/b.csv.gz").data) ∧
    extension (("a/b.csv.gz").data) =
      .ok (if suffixAfterLast '.' (("a/b.csv.gz").data) = ("gz").data ∨
            suffixAfterLast '.' (("a/b.csv.gz").data) = ("bz2").data
          then suffixAfterLast '.' (prefixBeforeLast '.' (("a/b.csv.gz").data))
          else suffixAfterLast '.' (("a/b.csv.gz").data)) :=
  ⟨by decide, c3_extension_rule.1 (("a/b.csv.gz").data) (by decide)⟩

/-- C4 counterexample: the claim states `extension` never raises; on the
dot-free name gz the code evaluates a two-element negative index of the
one-element split list and raises IndexError. -/
theorem c4_extension_gz_raises : extension (("gz").data) = .error .indexError := by
  rfl

/-- C4 as amended: `extension` never raises except on exactly the dot-free
names gz and bz2; every name with a dot yields a value, and every other
dot-free name is returned whole as its own tag. -/
theorem c4_extension_no_dot_total :
    (∀ f : Key, '.' ∈ f → ∃ s, extension f = .ok s) ∧
    (∀ f : Key, '.' ∉ f → f ≠ ("gz").data → f ≠ ("bz2").data →
        extension f = .ok f) ∧
    extension (("gz").data) = .error .indexError ∧
    extension (("bz2").data) = .error .indexError := by
  refine ⟨?_, ?_, by rfl, by rfl⟩
  · intro f hc
    exact ⟨_, extension_of_dot f hc⟩
  · intro f hc h1 h2
    have hcond : ¬(f = ("gz").data ∨ f = ("bz2").data) := by
      rintro (h3 | h3)
      · exact h1 h3
      · exact h2 h3
    rw [extension_of_not_dot f hc, if_neg hcond]

/-- Witness for C4 as amended, at the dot-free name notes. -/
theorem c4_extension_no_dot_total_witness :
    ('.' ∉ ("notes").data) ∧ (("notes").data ≠ ("gz").data) ∧
    (("notes").data ≠ ("bz2").data) ∧
    extension (("notes").data) = .ok (("notes").data) :=
  ⟨by decide, by decide, by decide,
    (c4_extension_no_dot_total.2).1 (("notes").data) (by decide) (by decide)
      (by decide)⟩

/-- C5: `find_file` first scans the content keys of the listing at the
current level in page order (substring match when str_contains, equality
otherwise) and returns the first match; only when that pass yields nothing
does it re-iterate the listing and recurse into each common prefix in turn,
returning the first non-None recursive result. -/
theorem c5_find_file_two_pass :
    ∀ (bucket : List Key) (nm p d : Key) (sc : Bool),
      find_file bucket nm p d sc =
        (match (listing bucket p d).contents.find? (fun k => matchKey nm k sc) with
         | some k => some k
         | none => (listing bucket p d).commonPrefixes.findSome?
             (fun q => find_file bucket nm q d sc)) ∧
      (∀ k, matchKey nm k true = strIn nm k) ∧
      (∀ k, matchKey nm k false = decide (nm = k)) :=
  fun bucket nm p d sc =>
    ⟨find_file_eq bucket nm p d sc, fun _ => rfl, fun _ => rfl⟩

/-- C6: with str_contains, `find_file` from the bucket root returns some key
containing the requested name whenever one exists in the snapshot, and
returns None exactly when no key contains the name; None is a normal return
value of the embedding, not an error. -/
theorem c6_find_file_contains_complete :
    ∀ (bucket : List Key) (nm : Key),
      ((∃ k, k ∈ bucket ∧ strIn nm k = true) →
        ∃ r, find_file bucket nm [] (("/").data) true = some r ∧
          strIn nm r = true ∧ r ∈ bucket) ∧
      (find_file bucket nm [] (("/").data) true = none ↔
        ¬ ∃ k, k ∈ bucket ∧ strIn nm k = true) := by
  intro bucket nm
  have hwrap : find_file bucket nm [] (("/").data) true =
      find_file_fuel bucket (("/").data) true nm (maxLen bucket + 1) [] := rfl
  constructor
  · intro hex
    obtain ⟨k, hk, hin⟩ := hex
    have hpk : ([] : Key).isPrefixOf k = true :=
        List.isPrefixOf_iff_prefix.mpr List.nil_prefix
    have hc := find_file_fuel_complete bucket (("/").data) true nm (maxLen bucket + 1)
      [] (by simp) ⟨k, hk, hpk, by simpa [matchKey] using hin⟩
    rcases Option.isSome_iff_exists.mp hc with ⟨r, hr⟩
    obtain ⟨hb, _, hm⟩ := find_file_fuel_sound bucket (("/").data) true nm
      (maxLen bucket + 1) [] r hr
    refine ⟨r, ?_, by simpa [matchKey] using hm, hb⟩
    rw [hwrap]
    exact hr
  · constructor
    · intro hnone hex
      obtain ⟨k, hk, hin⟩ := hex
      have hpk : ([] : Key).isPrefixOf k = true :=
        List.isPrefixOf_iff_prefix.mpr List.nil_prefix
      have hc := find_file_fuel_complete bucket (("/").data) true nm (maxLen bucket + 1)
        [] (by simp) ⟨k, hk, hpk, by simpa [matchKey] using hin⟩
      rw [← hwrap, hnone] at hc
      cases hc
    · intro hnex
      cases hff : find_file bucket nm [] (("/").data) true with
      | none => rfl
      | some r =>
        exfalso
        rw [hwrap] at hff
        obtain ⟨hb, _, hm⟩ := find_file_fuel_sound bucket (("/").data) true nm
          (maxLen bucket + 1) [] r hff
        exact hnex ⟨r, hb, by simpa [matchKey] using hm⟩

/-- Witness for C6: on the concrete snapshot, the name 3.csv is found (as
b/3.csv) and the name zzz is reported not found. -/
theorem c6_find_file_contains_complete_witness :
    (∃ r, find_file exBucket (("3.csv").data) [] (("/").data) true = some r ∧
      strIn (("3.csv").data) r = true ∧ r ∈ exBucket) ∧
    (find_file exBucket (("zzz").data) [] (("/").data) true = none ↔
      ¬ ∃ k, k ∈ exBucket ∧ strIn (("zzz").data) k = true) :=
  ⟨(c6_find_file_contains_complete exBucket (("3.csv").data)).1
      ⟨("b/3.csv").data, by decide, by decide⟩,
   (c6_find_file_contains_complete exBucket (("zzz").data)).2⟩

/-- C7: the claim states that for every worker count, result i of
`read_thread` is the decoded content of filtered key i.  The code stages
every fetched object through the shared instance buffer `self.read_content`
(core.py lines 100-111) before decoding it, so the guarantee holds for the
serial schedule that a single worker produces but fails under a valid
two-worker interleaving of the very keys `find_files` discovers under a/:
both tasks fetch before either decodes, task 1 overwrites the buffer, and
result 0 becomes the decoded content of key 1.  The conjuncts check, by
evaluation: the dispatched key list, validity and worker need of both
schedules, the serial output (the claimed one), the raced output, and
their disagreement. -/
theorem c7_read_thread_shared_buffer_race :
    filteredFiles exBucket (("a/").data) (("/").data) none =
      [("a/1.csv").data, ("a/2.csv").data] ∧
    validSchedule 2 (serialSchedule 2) = true ∧
    maxConcurrent (serialSchedule 2) 0 0 = 1 ∧
    validSchedule 2 raceSchedule = true ∧
    maxConcurrent raceSchedule 0 0 = 2 ∧
    runShared [("ONE").data, ("TWO").data]
        (fun _ b => ("csv:").data ++ b) (serialSchedule 2) =
      [some (("csv:ONE").data), some (("csv:TWO").data)] ∧
    runShared [("ONE").data, ("TWO").data]
        (fun _ b => ("csv:").data ++ b) raceSchedule =
      [some (("csv:TWO").data), some (("csv:TWO").data)] ∧
    runShared [("ONE").data, ("TWO").data]
        (fun _ b => ("csv:").data ++ b) raceSchedule ≠
      runShared [("ONE").data, ("TWO").data]
        (fun _ b => ("csv:").data ++ b) (serialSchedule 2) :=
  ⟨rfl, by decide, by decide, by decide, by decide, rfl, rfl, by decide⟩

/-- C8: `read_auto` on a format tag outside the supported set raises (the
broken raise_error lambda produces a TypeError) instead of returning, and in
`read_thread` an error of any single task makes the whole dispatch return
that error with no partial result list. -/
theorem c8_error_propagation :
    (∀ (V : Type) (decode : Key → Key → V) (file tag : Key),
        tag ∉ supportedExts → read_auto decode file (some tag) = .error .typeError) ∧
    (∀ (V : Type) (decode : Key → Key → V) (bucket : List Key) (p d : Key)
        (ext : Option Key) (sc : Option Key) (w : Nat) (k : Key) (e : PyError),
        k ∈ filteredFiles bucket p d sc → read_auto decode k ext = .error e →
        ∃ e2, read_thread decode bucket p d ext sc w = .error e2) := by
  constructor
  · intro V decode file tag h
    exact read_auto_unsupported decode file tag h
  · intro V decode bucket p d ext sc w k e hk he
    rw [read_thread_eq]
    exact thread_map_error _ (filteredFiles bucket p d sc) w k hk ⟨e, he⟩

/-- Witness for C8: the unsupported tag xyz raises a TypeError, and a
one-file dispatch whose single task raises aborts with an error. -/
theorem c8_error_propagation_witness :
    read_auto (fun t _ => t) (("f.csv").data) (some (("xyz").data)) =
      .error .typeError ∧
    (∃ e2, read_thread (fun t _ => t) [("a.csv").data] [] (("/").data)
        (some (("xyz").data)) none 4 = .error e2) :=
  ⟨c8_error_propagation.1 Key (fun t _ => t) (("f.csv").data) (("xyz").data)
      (by decide),
   c8_error_propagation.2 Key (fun t _ => t) [("a.csv").data] [] (("/").data)
      (some (("xyz").data)) none 4 (("a.csv").data) .typeError (by decide) (by rfl)⟩

/-- C9: the tag sql passes the supported-set membership test of `read_auto`,
but the class defines no read_sql method, so the getattr dispatch raises an
AttributeError: for the tag sql `read_auto` never returns a decoded value,
whether the tag is passed explicitly or detected from the file name. -/
theorem c9_read_auto_sql_attribute_error :
    (("sql").data ∈ supportedExts) ∧
    (∀ (V : Type) (decode : Key → Key → V) (file : Key),
        read_auto decode file (some (("sql").data)) = .error .attributeError) ∧
    (∀ (V : Type) (decode : Key → Key → V),
        read_auto decode (("q.sql").data) none = .error .attributeError) := by
  refine ⟨by decide, ?_, ?_⟩
  · intro V decode file
    rfl
  · intro V decode
    rfl

/-- C10: in a tree built with with_file_name set to false, every value at
every depth is a sub-dict; the None leaf marker never occurs. -/
theorem c10_no_leaf_without_file_name :
    ∀ (bucket : List Key) (p d : Key),
      (make_tree bucket p d false).noLeafEntries = true :=
  fun bucket p d => make_tree_fuel_noLeaf bucket d (maxLen bucket + 1) p
